import Mathlib

/-!
Verification of the `lease` library (a distributed lease coordinator over a
conditional item store) against its natural-language specification.

The definitions below are a shallow embedding of the Go sources:
`manager.go`, `interface.go`, `coordinator.go`, `renewer.go`, `taker`
(`unnamed/part_007`) and the serializer (the current revision of
`serializer.go`, the one concatenated at the end of `_examples/worker.go`,
which is the only revision consistent with `interface.go`'s explicit
fields and `manager.go`'s `UpdateLease`).

Go maps are modelled as association lists (`List (String × α)`) with
first-match lookup, in-place replacement on insert and full erasure on
delete; Go `int` is modelled as `Int`; the external DynamoDB client is
modelled as a response oracle `Nat → Resp` consumed call by call; the
`jpillora/backoff` strategy used by the manager is modelled by its attempt
counter (`Attempt()` returns the number of `Duration()` calls since the
last `Reset()`).
-/

set_option maxHeartbeats 1000000

namespace LeaseLib

/-- Membership of a key in a Go map modelled as an association list. -/
def memA {α : Type} (m : List (String × α)) (k : String) : Bool :=
  m.any (fun p => p.1 == k)

/-- Lookup of a key in a Go map modelled as an association list (first match). -/
def lookupA {α : Type} (m : List (String × α)) (k : String) : Option α :=
  match m with
  | [] => none
  | p :: rest => if p.1 == k then some p.2 else lookupA rest k

/-- Insertion `m[k] = v` into a Go map: replaces the binding if the key is
present, otherwise appends the new binding. -/
def insertA {α : Type} (m : List (String × α)) (k : String) (v : α) : List (String × α) :=
  match m with
  | [] => [(k, v)]
  | p :: rest => if p.1 == k then (k, v) :: rest else p :: insertA rest k v

/-- Deletion `delete(m, k)` from a Go map: removes every binding of the key. -/
def eraseA {α : Type} (m : List (String × α)) (k : String) : List (String × α) :=
  m.filter (fun p => p.1 != k)

/-- Keys of a Go map modelled as an association list. -/
def keysA {α : Type} (m : List (String × α)) : List String :=
  m.map Prod.fst

@[simp]
theorem memA_nil {α : Type} (k : String) : memA ([] : List (String × α)) k = false := rfl

@[simp]
theorem memA_cons {α : Type} (p : String × α) (m : List (String × α)) (k : String) :
    memA (p :: m) k = (p.1 == k || memA m k) := by
  simp [memA, List.any]

@[simp]
theorem lookupA_nil {α : Type} (k : String) : lookupA ([] : List (String × α)) k = none := rfl

@[simp]
theorem lookupA_cons {α : Type} (p : String × α) (m : List (String × α)) (k : String) :
    lookupA (p :: m) k = if p.1 == k then some p.2 else lookupA m k := rfl

theorem memA_iff_lookupA {α : Type} (m : List (String × α)) (k : String) :
    memA m k = true ↔ (lookupA m k).isSome := by
  induction m with
  | nil => simp
  | cons p rest ih =>
    by_cases h : p.1 = k
    · simp [h]
    · simpa [h] using ih

@[simp]
theorem memA_insertA_self {α : Type} (m : List (String × α)) (k : String) (v : α) :
    memA (insertA m k v) k = true := by
  induction m with
  | nil => simp [insertA]
  | cons p rest ih =>
    by_cases h : p.1 = k
    · simp [insertA, h]
    · simp [insertA, h, ih]

@[simp]
theorem memA_eraseA_self {α : Type} (m : List (String × α)) (k : String) :
    memA (eraseA m k) k = false := by
  induction m with
  | nil => simp [eraseA]
  | cons p rest ih =>
    by_cases h : p.1 = k
    · simpa [eraseA, h] using ih
    · simpa [eraseA, h] using ih

@[simp]
theorem eraseA_nil {α : Type} (k : String) : eraseA ([] : List (String × α)) k = [] := rfl

@[simp]
theorem eraseA_cons {α : Type} (p : String × α) (m : List (String × α)) (k : String) :
    eraseA (p :: m) k = if p.1 = k then eraseA m k else p :: eraseA m k := by
  by_cases h : p.1 = k <;> simp [eraseA, List.filter_cons, h]

theorem memA_insertA_ne {α : Type} (m : List (String × α)) (k j : String) (v : α)
    (h : j ≠ k) : memA (insertA m k v) j = memA m j := by
  induction m with
  | nil => simp [insertA, memA, Ne.symm h]
  | cons p rest ih =>
    by_cases hp : p.1 = k
    · simp [insertA, hp]
    · simp [insertA, hp, ih]

theorem memA_eraseA_ne {α : Type} (m : List (String × α)) (k j : String)
    (h : j ≠ k) : memA (eraseA m k) j = memA m j := by
  induction m with
  | nil => simp
  | cons p rest ih =>
    by_cases hp : p.1 = k
    · have hpj : p.1 ≠ j := by rw [hp]; exact Ne.symm h
      simp [hp, ih, hpj]
      intro hkj
      exact absurd hkj.symm h
    · simp [hp, ih]

theorem lookupA_insertA_self {α : Type} (m : List (String × α)) (k : String) (v : α) :
    lookupA (insertA m k v) k = some v := by
  induction m with
  | nil => simp [insertA]
  | cons p rest ih =>
    by_cases h : p.1 = k
    · simp [insertA, h]
    · simp [insertA, h, ih]

theorem lookupA_insertA_ne {α : Type} (m : List (String × α)) (k j : String) (v : α)
    (h : j ≠ k) : lookupA (insertA m k v) j = lookupA m j := by
  induction m with
  | nil => simp [insertA, Ne.symm h]
  | cons p rest ih =>
    by_cases hp : p.1 = k
    · subst hp
      simp [insertA, Ne.symm h]
    · simp [insertA, hp, ih]

theorem length_insertA_not_mem {α : Type} (m : List (String × α)) (k : String) (v : α)
    (h : memA m k = false) : (insertA m k v).length = m.length + 1 := by
  induction m with
  | nil => simp [insertA]
  | cons p rest ih =>
    simp only [memA_cons, Bool.or_eq_false_iff] at h
    have hp : ¬ p.1 = k := by
      intro hkp
      simp [hkp] at h
    simp [insertA, hp, ih h.2]

/-! ### Data model: DynamoDB attribute values and Go metadata values

`AttrVal` models `dynamodb.AttributeValue`: exactly one of the member
pointers is set. `GoVal` models the Go `interface{}` values held in a
lease's `extrafields` map, and `marshalVal`/`unmarshalVal` model the
external `dynamodbattribute` marshalling used by the serializer. -/

/-- Model of `dynamodb.AttributeValue` (the variant that is non-nil). -/
inductive AttrVal : Type
  | s (v : String)
  | n (v : String)
  | bool (v : Bool)
  | ss (v : List String)
  | ns (v : List String)
  | bs (v : List (List Nat))
  | ls (v : List String)
deriving DecidableEq

/-- Model of a Go `interface{}` metadata value as used with `Lease.Set`. -/
inductive GoVal : Type
  | str (v : String)
  | int (v : Int)
  | boolean (v : Bool)
  | numStr (v : String)
  | strList (v : List String)
  | bytesList (v : List (List Nat))
deriving DecidableEq

/-- Model of `dynamodbattribute.Marshal` on a single metadata value. -/
def marshalVal : GoVal → AttrVal
  | .str v => .s v
  | .int v => .n (toString v)
  | .boolean v => .bool v
  | .numStr v => .n v
  | .strList v => .ls v
  | .bytesList v => .bs v

/-- Model of `dynamodbattribute.ConvertFrom` on a single attribute value. -/
def unmarshalVal : AttrVal → GoVal
  | .s v => .str v
  | .n v => .numStr v
  | .bool v => .boolean v
  | .ss v => .strList v
  | .ns v => .strList v
  | .bs v => .bytesList v
  | .ls v => .strList v

/-- Model of the check `v.SS != nil || v.BS != nil || v.NS != nil` that the
serializer's Decode uses to classify an attribute as an explicit typed set. -/
def isSetType : AttrVal → Bool
  | .ss _ => true
  | .ns _ => true
  | .bs _ => true
  | _ => false

/-- Model of `lease.AttributeType` (the explicit DynamoDB data type passed
to `Lease.SetAs`). -/
inductive AttributeType : Type
  | stringSet
  | numberSet
  | binarySet
deriving DecidableEq

/-- Errors surfaced by the embedded operations, mirroring the package's
error values and the AWS error codes the manager branches on. -/
inductive Err : Type
  | valueNotMatch
  | leaseNotHeld
  | tokenNotMatch
  | conditionalFailed
  | genericErr
  | decodeErr
deriving DecidableEq

/-- Model of the `Lease` struct of `interface.go` (current revision, the one
with `concurrencyToken`, `extrafields`, `explicitfields` and
`removedfields`). `lastRenewal` is an integer timestamp. -/
structure Lease : Type where
  key : String := ""
  owner : String := ""
  counter : Int := 0
  lastRenewal : Int := 0
  concurrencyToken : String := ""
  extrafields : List (String × GoVal) := []
  explicitfields : List (String × AttrVal) := []
  removedfields : List String := []
deriving DecidableEq

/-- Model of `NewLease(key)`. -/
def NewLease (key : String) : Lease := { key := key }

/-- Model of `Lease.hasNoOwner`. -/
def Lease.hasNoOwner (l : Lease) : Bool :=
  l.owner == "NULL" || l.owner == ""

/-- Model of `Lease.isExpired(t)` at wall-clock instant `now`:
`time.Since(l.lastRenewal) > t`. -/
def Lease.isExpired (l : Lease) (now t : Int) : Bool :=
  now - l.lastRenewal > t

/-- Model of `Lease.Set(key, val)`: inserts into `extrafields` and deletes
the key from `explicitfields`. -/
def Lease.set (l : Lease) (k : String) (v : GoVal) : Lease :=
  { l with
    extrafields := insertA l.extrafields k v
    explicitfields := eraseA l.explicitfields k }

/-- Model of `Lease.SetAs(key, val, typ)`: on a type match, stores the typed
set in `explicitfields` and deletes the key from `extrafields`; otherwise
returns `ErrValueNotMatch` leaving both maps unchanged. -/
def Lease.setAs (l : Lease) (k : String) (v : GoVal) (typ : AttributeType) :
    Lease × Option Err :=
  match typ, v with
  | .stringSet, .strList ss =>
      ({ l with explicitfields := insertA l.explicitfields k (.ss ss)
                extrafields := eraseA l.extrafields k }, none)
  | .numberSet, .strList ss =>
      ({ l with explicitfields := insertA l.explicitfields k (.ns ss)
                extrafields := eraseA l.extrafields k }, none)
  | .binarySet, .bytesList bs =>
      ({ l with explicitfields := insertA l.explicitfields k (.bs bs)
                extrafields := eraseA l.extrafields k }, none)
  | _, _ => (l, some .valueNotMatch)

/-- Model of `Lease.Get(key)`. -/
def Lease.get (l : Lease) (k : String) : Option GoVal :=
  match lookupA l.extrafields k with
  | some v => some v
  | none =>
    match lookupA l.explicitfields k with
    | some a => some (unmarshalVal a)
    | none => none

/-- Model of `Lease.Del(key)`: deletes the key from `extrafields` if present
there, otherwise from `explicitfields` if present there, and appends it to
`removedfields` exactly when it was present in one of the two maps. -/
def Lease.del (l : Lease) (k : String) : Lease :=
  if memA l.extrafields k then
    { l with extrafields := eraseA l.extrafields k
             removedfields := l.removedfields ++ [k] }
  else if memA l.explicitfields k then
    { l with explicitfields := eraseA l.explicitfields k
             removedfields := l.removedfields ++ [k] }
  else l

/-! ### Serializer

Embedding of the current `serializer` revision (the one concatenated at the
end of `_examples/worker.go`, whose Encode and Decode both handle
`explicitfields`; it is the only serializer revision consistent with
`interface.go`'s `SetAs` and with `manager.go`'s `UpdateLease`). -/

/-- Table schema constant `LeaseKeyKey`. -/
def LeaseKeyKey : String := "leaseKey"

/-- Table schema constant `LeaseOwnerKey`. -/
def LeaseOwnerKey : String := "leaseOwner"

/-- Table schema constant `LeaseCounterKey`. -/
def LeaseCounterKey : String := "leaseCounter"

/-- The serializer's `schemakeys` field. -/
def schemakeys : List String := [LeaseKeyKey, LeaseOwnerKey, LeaseCounterKey]

/-- Item representation: a DynamoDB attribute map. -/
abbrev Item := List (String × AttrVal)

/-- Model of `serializer.Encode`: starts from the reserved triple, deletes
the schema keys from `extrafields` only, then merges `explicitfields` and
then the marshalled `extrafields` into the item. The modelled generic
marshalling is total, so the `MarshalMap` error path cannot fire. -/
def Encode (lease : Lease) : Item :=
  let item : Item :=
    [(LeaseKeyKey, .s lease.key),
     (LeaseOwnerKey, .s lease.owner),
     (LeaseCounterKey, .n (toString lease.counter))]
  let extra := schemakeys.foldl (fun m k => eraseA m k) lease.extrafields
  let item := lease.explicitfields.foldl (fun it p => insertA it p.1 p.2) item
  (extra.map (fun p => (p.1, marshalVal p.2))).foldl (fun it p => insertA it p.1 p.2) item

/-- Model of `dynamodbattribute.UnmarshalMap` on a string-tagged member:
a missing attribute leaves the zero value, a non-string attribute is an
unmarshalling error. -/
def decodeStringField (item : Item) (k : String) : Option String :=
  match lookupA item k with
  | none => some ""
  | some (.s v) => some v
  | some _ => none

/-- Digit-string accumulator used by the number parser. -/
def digitsVal (acc : Nat) : List Char → Option Nat
  | [] => some acc
  | c :: cs => if c.isDigit then digitsVal (acc * 10 + (c.toNat - 48)) cs else none

/-- Model of the integer parsing the attribute unmarshaller performs on a
DynamoDB number string (`strconv`-style: optional minus sign followed by at
least one digit). -/
def parseIntStr (s : String) : Option Int :=
  match s.data with
  | [] => none
  | '-' :: cs =>
    match cs with
    | [] => none
    | _ => (digitsVal 0 cs).map (fun n => -(n : Int))
  | cs => (digitsVal 0 cs).map (fun n => (n : Int))

/-- Model of `dynamodbattribute.UnmarshalMap` on the int-tagged counter:
a missing attribute leaves 0, a non-number or unparseable attribute is an
unmarshalling error. -/
def decodeCounterField (item : Item) : Option Int :=
  match lookupA item LeaseCounterKey with
  | none => some (0 : Int)
  | some (.n v) => parseIntStr v
  | some _ => none

/-- Model of `serializer.Decode`: unmarshals the lease, stamps
`lastRenewal := now` and a fresh concurrency token (both passed as
parameters since they come from the clock and the uuid generator), deletes
the schema keys from the item, then splits the leftovers into
`explicitfields` (typed sets) and `extrafields` (converted generically).
Returns `none` on an unmarshalling error. -/
def Decode (now : Int) (token : String) (item : Item) : Option Lease :=
  match decodeStringField item LeaseKeyKey,
        decodeStringField item LeaseOwnerKey,
        decodeCounterField item with
  | some key, some owner, some counter =>
    let rest := schemakeys.foldl (fun m k => eraseA m k) item
    let explicit := rest.filter (fun p => isSetType p.2)
    let extra := (rest.filter (fun p => !isSetType p.2)).map
      (fun p => (p.1, unmarshalVal p.2))
    some { key := key, owner := owner, counter := counter,
           lastRenewal := now, concurrencyToken := token,
           extrafields := extra, explicitfields := explicit,
           removedfields := [] }
  | _, _, _ => none

/-! ### Manager

Embedding of `manager.go` (current revision: the one with `condUpdate`,
`PutItem`/`DeleteItem`, and the shared backoff). The DynamoDB client is a
response oracle consumed one response per store call; the backoff strategy
is its attempt counter (`Attempt()` = number of `Duration()` calls since
the last `Reset()`), which every public operation resets at the end. -/

/-- Retry caps of `manager.go`. -/
def maxScanRetries : Nat := 3

/-- Retry cap `maxCreateRetries` of `manager.go`. -/
def maxCreateRetries : Nat := 3

/-- Retry cap `maxUpdateRetries` of `manager.go`. -/
def maxUpdateRetries : Nat := 2

/-- Retry cap `maxDeleteRetries` of `manager.go`. -/
def maxDeleteRetries : Nat := 2

/-- Model of `dynamodb.UpdateItemInput` as built by the manager (the fields
the embedding needs: key, update expression, optional condition expression,
and the expression attribute values and names). -/
structure UpdateItemInput : Type where
  key : String
  updateExpression : String
  conditionExpression : Option String
  exprAttrValues : List (String × AttrVal)
  exprAttrNames : List (String × String)
deriving DecidableEq

/-- Model of `LeaseManager.condUpdate`'s construction of the
`UpdateItemInput`: unconditionally SETs owner and counter from
`updateLease`, and adds `:condCounter = #counter` when `condLease.Counter >
0` and `:condOwner = #owner` when `condLease.Owner != ""` (the veteran
lease heuristics), joined by AND. -/
def condUpdateInput (updateLease condLease : Lease) : UpdateItemInput :=
  let values : List (String × AttrVal) :=
    [(":owner", .s updateLease.owner), (":count", .n (toString updateLease.counter))]
  let updateExpression :=
    "SET " ++ LeaseOwnerKey ++ " = :owner, " ++ LeaseCounterKey ++ " = :count"
  let (condExp, values, names) :=
    if condLease.counter > 0 then
      (":condCounter = #counter",
       values ++ [(":condCounter", AttrVal.n (toString condLease.counter))],
       [("#counter", LeaseCounterKey)])
    else ("", values, [])
  let (condExp, values, names) :=
    if condLease.owner ≠ "" then
      ((if condExp ≠ "" then condExp ++ " AND " else condExp) ++ ":condOwner = #owner",
       values ++ [(":condOwner", AttrVal.s condLease.owner)],
       names ++ [("#owner", LeaseOwnerKey)])
    else (condExp, values, names)
  { key := updateLease.key
    updateExpression := updateExpression
    conditionExpression := if condExp ≠ "" then some condExp else none
    exprAttrValues := values
    exprAttrNames := names }

/-- Response of one `Client.UpdateItem` call: success with the returned
`ALL_NEW` attributes, a `ConditionalCheckFailedException`, or any other
(generic, transient) error. -/
inductive UpdResp : Type
  | ok (attrs : Item)
  | condFailed
  | genericErr
deriving DecidableEq

/-- Outcome of the manager's `updateLease` retry loop over `UpdateItem`:
the last call's response, or `noCall` when the loop body never ran because
the backoff attempt counter was already at the cap. -/
inductive CallResult : Type
  | ok (attrs : Item)
  | condFailed
  | genericErr
  | noCall
deriving DecidableEq

/-- Model of the retry loop of `LeaseManager.updateLease`: while
`Backoff.Attempt() < maxUpdateRetries`, call `UpdateItem`; break on success
and on conditional failure; on a generic error call `Backoff.Duration()`
(incrementing the attempt counter) and retry. `fuel` is the number of
remaining loop turns the guard allows (`maxUpdateRetries` minus the backoff
attempt counter), `idx` numbers the client calls (the oracle index).
Returns the final outcome and the next call index (= number of calls made
when started at 0). -/
def updateItemLoop (resp : Nat → UpdResp) : Nat → Nat → CallResult × Nat
  | 0, idx => (.noCall, idx)
  | fuel + 1, idx =>
    match resp idx with
    | .ok attrs => (.ok attrs, idx + 1)
    | .condFailed => (.condFailed, idx + 1)
    | .genericErr =>
      match updateItemLoop resp fuel (idx + 1) with
      | (.noCall, j) => (.genericErr, j)
      | r => r

/-- Model of `LeaseManager.updateLease` (the shared retry wrapper): runs the
retry loop starting from backoff attempt `bk`, resets the backoff, and on
success decodes the returned attributes. Returns the decoded lease (when
any), the error (when any), and the number of client calls made. -/
def managerUpdateLease (now : Int) (token : String) (resp : Nat → UpdResp)
    (bk : Nat) (_input : UpdateItemInput) : Option Lease × Option Err × Nat :=
  match updateItemLoop resp (maxUpdateRetries - bk) 0 with
  | (.ok attrs, n) =>
    match Decode now token attrs with
    | some l => (some l, none, n)
    | none => (none, some .decodeErr, n)
  | (.condFailed, n) => (none, some .conditionalFailed, n)
  | (.genericErr, n) => (none, some .genericErr, n)
  | (.noCall, n) => (none, none, n)

/-- Model of `LeaseManager.condUpdate`: builds the conditional
`UpdateItemInput` from the two leases and runs `updateLease`, keeping only
the error (`_, err = l.updateLease(updateInput)`). -/
def condUpdate (now : Int) (token : String) (resp : Nat → UpdResp) (bk : Nat)
    (updateLease condLease : Lease) : Option Err :=
  (managerUpdateLease now token resp bk (condUpdateInput updateLease condLease)).2.1

/-- Model of `LeaseManager.RenewLease`: copies the lease, increments the
copy's counter, issues the conditional update, and only on success copies
the new counter back into the caller's lease. Returns the caller's lease
after the call together with the error. -/
def RenewLease (now : Int) (token : String) (resp : Nat → UpdResp) (bk : Nat)
    (lease : Lease) : Lease × Option Err :=
  let clease := { lease with counter := lease.counter + 1 }
  match condUpdate now token resp bk clease lease with
  | none => ({ lease with counter := clease.counter }, none)
  | some e => (lease, some e)

/-- Model of `LeaseManager.TakeLease`: copies the lease, increments the
copy's counter and sets its owner to this worker, issues the conditional
update, and only on success copies both fields back. -/
def TakeLease (workerId : String) (now : Int) (token : String)
    (resp : Nat → UpdResp) (bk : Nat) (lease : Lease) : Lease × Option Err :=
  let clease := { lease with counter := lease.counter + 1, owner := workerId }
  match condUpdate now token resp bk clease lease with
  | none => ({ lease with owner := clease.owner, counter := clease.counter }, none)
  | some e => (lease, some e)

/-- Model of `LeaseManager.EvictLease`: copies the lease, sets the copy's
owner to `"NULL"`, issues the conditional update, and only on success
copies the owner back. -/
def EvictLease (now : Int) (token : String) (resp : Nat → UpdResp) (bk : Nat)
    (lease : Lease) : Lease × Option Err :=
  let clease := { lease with owner := "NULL" }
  match condUpdate now token resp bk clease lease with
  | none => ({ lease with owner := clease.owner }, none)
  | some e => (lease, some e)

/-- The `UpdateItemInput` that `EvictLease` hands to `condUpdate` for a
given lease (used to state the claims about evict's expressions). -/
def evictInput (lease : Lease) : UpdateItemInput :=
  condUpdateInput { lease with owner := "NULL" } lease

/-- Response of one `Client.CreateTable` call: success, a
`ResourceInUseException` ("already exists"), or a generic error. -/
inductive CtResp : Type
  | ok
  | alreadyExists
  | genericErr
deriving DecidableEq

/-- Model of the retry loop of `LeaseManager.CreateLeaseTable`: while
`Backoff.Attempt() < maxCreateRetries`, call `CreateTable`; break on
success; treat `ResourceInUseException` as success (err = nil) and break;
on a generic error back off and retry. `fuel` is the number of remaining
loop turns the guard allows. Returns `some err?` for the loop's final error
state (`none` of the outer option = loop body never ran) and the next call
index. -/
def createTableLoop (resp : Nat → CtResp) : Nat → Nat → Option (Option Err) × Nat
  | 0, idx => (none, idx)
  | fuel + 1, idx =>
    match resp idx with
    | .ok => (some none, idx + 1)
    | .alreadyExists => (some none, idx + 1)
    | .genericErr =>
      match createTableLoop resp fuel (idx + 1) with
      | (none, j) => (some (some .genericErr), j)
      | r => r

/-- Model of `LeaseManager.CreateLeaseTable`: runs the create-table retry
loop from backoff attempt `bk`, then resets the shared backoff. Returns the
error (when any), the number of `CreateTable` calls made, and the backoff
attempt counter after the call (always 0 because of the final `Reset`). -/
def CreateLeaseTable (resp : Nat → CtResp) (bk : Nat) : Option Err × Nat × Nat :=
  match createTableLoop resp (maxCreateRetries - bk) 0 with
  | (some e, n) => (e, n, 0)
  | (none, n) => (none, n, 0)

/-- Response of one `Client.Scan` call. -/
inductive ScanResp : Type
  | ok (items : List Item)
  | genericErr
deriving DecidableEq

/-- Model of the retry loop of `LeaseManager.ListLeases`: while
`Backoff.Attempt() < maxScanRetries`, scan; on error back off and retry; on
success decode every item, skipping (and only logging) the items whose
decoding fails, and break. `fuel` is the number of remaining loop turns the
guard allows. Returns `some (list, err?)` or `none` when the loop body
never ran, and the next call index. -/
def listLeasesLoop (now : Int) (token : String) (resp : Nat → ScanResp) :
    Nat → Nat → Option (List Lease × Option Err) × Nat
  | 0, idx => (none, idx)
  | fuel + 1, idx =>
    match resp idx with
    | .ok items => (some (items.filterMap (Decode now token), none), idx + 1)
    | .genericErr =>
      match listLeasesLoop now token resp fuel (idx + 1) with
      | (none, j) => (some ([], some .genericErr), j)
      | r => r

/-- Model of `LeaseManager.ListLeases`: runs the scan retry loop from
backoff attempt `bk` and resets the backoff. Returns the decoded leases,
the error (when any), and the number of `Scan` calls made. -/
def ListLeases (now : Int) (token : String) (resp : Nat → ScanResp) (bk : Nat) :
    List Lease × Option Err × Nat :=
  match listLeasesLoop now token resp (maxScanRetries - bk) 0 with
  | (some (list, e), n) => (list, e, n)
  | (none, n) => ([], none, n)

/-! ### Renewer

Embedding of `LeaseHolder.Renew` from `renewer.go`: the per-tick update of
the worker's held-lease map given the freshly listed leases. The
`RenewLease` store call outcome (`renewOk`) only reaches the logger: both
its branches leave the held map untouched, exactly as in the source. The
stored entry's counter is bumped because `renewLease` increments the
counter of the shared lease object before the store call. -/
def renewStep (workerId : String) (renewOk : String → Bool)
    (acc : List (String × Lease)) (l : Lease) : List (String × Lease) :=
  if l.owner == workerId then
    let acc := insertA acc l.key { l with counter := l.counter + 1 }
    if renewOk l.key then
      acc
    else
      -- renew failure: logged at debug, the held map is not changed
      acc
  else if memA acc l.key then eraseA acc l.key else acc

/-- Model of `LeaseHolder.Renew` given a successful listing: first drop the
held leases whose key is no longer listed ("deprecated"), then walk the
listed leases, inserting and renewing the self-owned ones and dropping held
leases listed under another owner. -/
def renewTick (workerId : String) (renewOk : String → Bool)
    (held : List (String × Lease)) (list : List Lease) : List (String × Lease) :=
  let held1 := held.filter (fun p => list.any (fun l => l.key == p.1))
  list.foldl (renewStep workerId renewOk) held1

/-! ### Taker

Embedding of `leaseTaker` from `unnamed/part_007` (the current `package
lease` revision). The eviction issued inside `updateLeases` goes through
the manager; its outcome is abstracted by the `evictOk` oracle: on success
`EvictLease` writes `"NULL"` back into the in-memory lease, on failure the
lease keeps the owner just copied from the fresh scan. -/

/-- The entry that `leaseTaker.updateLeases` stores for one freshly listed
lease: the fresh lease if the key is new or its counter advanced, otherwise
the old entry (with the owner refreshed, and `"NULL"` on a successful
evict, when the old entry is expired). -/
def takerReconValue (expireAfter now : Int) (evictOk : String → Bool)
    (old : List (String × Lease)) (newL : Lease) : Lease :=
  match lookupA old newL.key with
  | some oldL =>
    if oldL.counter != newL.counter then newL
    else
      if oldL.isExpired now expireAfter then
        let o1 := { oldL with owner := newL.owner }
        if evictOk newL.key then { o1 with owner := "NULL" } else o1
      else oldL
  | none => newL

/-- Model of `leaseTaker.updateLeases`: rebuilds `allLeases` from the fresh
scan, one entry per listed lease. -/
def takerUpdateLeases (expireAfter now : Int) (evictOk : String → Bool)
    (old : List (String × Lease)) (list : List Lease) : List (String × Lease) :=
  list.foldl (fun acc newL =>
    insertA acc newL.key (takerReconValue expireAfter now evictOk old newL)) []

/-- Model of `leaseTaker.computeLeaseCounts`: counts leases per owner,
skipping unowned leases, and makes sure this worker is present (with 0). -/
def computeLeaseCounts (workerId : String) (allLeases : List (String × Lease)) :
    List (String × Nat) :=
  let m := allLeases.foldl (fun m p =>
    if p.2.hasNoOwner then m
    else
      match lookupA m p.2.owner with
      | some c => insertA m p.2.owner (c + 1)
      | none => insertA m p.2.owner 1) []
  if memA m workerId then m else insertA m workerId 0

/-- Model of the target computation in `leaseTaker.Take`: `target := 1`;
when `len(allLeases) > numWorkers`, `target = len(allLeases)/numWorkers`,
plus one when `len(list) % numWorkers != 0` (note: the source divides the
fresh list's length in the divisibility check). -/
def takeTarget (workerId : String) (expireAfter now : Int)
    (evictOk : String → Bool) (old : List (String × Lease)) (list : List Lease) : Nat :=
  let all := takerUpdateLeases expireAfter now evictOk old list
  let leaseCounts := computeLeaseCounts workerId all
  let numWorkers := leaseCounts.length
  if all.length > numWorkers then
    let target := all.length / numWorkers
    if list.length % numWorkers != 0 then target + 1 else target
  else 1

/-! ### Coordinator

Embedding of `Coordinator.Update` from `coordinator.go`: the guarded
user-metadata update. The renewer's held leases are passed as the list of
copies `GetHeldLeases` returns. -/

/-- Result of `Coordinator.Update`: either a local failure (which returns
the input lease unchanged and performs no store call) or a store call with
the given argument handed to `Manager.UpdateLease`. -/
inductive CoordUpdateResult : Type
  | failed (returned : Lease) (e : Err)
  | storeCall (arg : Lease)
deriving DecidableEq

/-- Model of `Coordinator.Update`: scans the held copies for the first one
with the argument's key (a zero-valued lease when none matches), fails with
`ErrLeaseNotHeld` when that copy has no owner, then with `ErrTokenNotMatch`
when its concurrency token differs from the argument's, and otherwise hands
the argument to `Manager.UpdateLease`. -/
def coordUpdate (held : List Lease) (lease : Lease) : CoordUpdateResult :=
  let heldLease := (held.find? (fun hlease => lease.key == hlease.key)).getD {}
  if heldLease.hasNoOwner then .failed lease .leaseNotHeld
  else if heldLease.concurrencyToken != lease.concurrencyToken then
    .failed lease .tokenNotMatch
  else .storeCall lease

/-! ## Claims -/

/-- C1: for every lease, if `RenewLease`, `TakeLease`, or `EvictLease`
returns an error (conditional failure, exhausted retries, or any other
error), then the caller's in-memory lease is returned exactly as it was
before the call — in particular with the same owner and counter. -/
theorem no_mutation_on_failure (now : Int) (token workerId : String)
    (resp : Nat → UpdResp) (bk : Nat) (lease : Lease) :
    ((RenewLease now token resp bk lease).2.isSome →
      (RenewLease now token resp bk lease).1 = lease)
    ∧ ((TakeLease workerId now token resp bk lease).2.isSome →
      (TakeLease workerId now token resp bk lease).1 = lease)
    ∧ ((EvictLease now token resp bk lease).2.isSome →
      (EvictLease now token resp bk lease).1 = lease) := by
  refine ⟨?_, ?_, ?_⟩
  · intro hs
    unfold RenewLease at hs ⊢
    cases h : condUpdate now token resp bk { lease with counter := lease.counter + 1 } lease with
    | none => simp [h] at hs
    | some e => simp [h]
  · intro hs
    unfold TakeLease at hs ⊢
    cases h : condUpdate now token resp bk
        { lease with counter := lease.counter + 1, owner := workerId } lease with
    | none => simp [h] at hs
    | some e => simp [h]
  · intro hs
    unfold EvictLease at hs ⊢
    cases h : condUpdate now token resp bk { lease with owner := "NULL" } lease with
    | none => simp [h] at hs
    | some e => simp [h]

/-- Witness for C1: a store that keeps failing leaves the concrete lease
`{key := "foo", owner := "o1", counter := 10}` untouched under all three
operations. -/
theorem no_mutation_on_failure_witness :
    (RenewLease 0 "t" (fun _ => .genericErr) 0
        { key := "foo", owner := "o1", counter := 10 }).1
      = { key := "foo", owner := "o1", counter := 10 }
    ∧ (TakeLease "me" 0 "t" (fun _ => .genericErr) 0
        { key := "foo", owner := "o1", counter := 10 }).1
      = { key := "foo", owner := "o1", counter := 10 }
    ∧ (EvictLease 0 "t" (fun _ => .genericErr) 0
        { key := "foo", owner := "o1", counter := 10 }).1
      = { key := "foo", owner := "o1", counter := 10 } := by
  obtain ⟨h1, h2, h3⟩ := no_mutation_on_failure 0 "t" "me" (fun _ => .genericErr) 0
    { key := "foo", owner := "o1", counter := 10 }
  exact ⟨h1 (by decide), h2 (by decide), h3 (by decide)⟩

/-- C2: for every lease, on success `RenewLease` sets the caller's counter
to its previous value plus exactly 1 and leaves the owner unchanged, and on
success `TakeLease` sets the counter to its previous value plus exactly 1
and the owner to this worker's id. -/
theorem success_increments_counter (now : Int) (token workerId : String)
    (resp : Nat → UpdResp) (bk : Nat) (lease : Lease) :
    ((RenewLease now token resp bk lease).2 = none →
      (RenewLease now token resp bk lease).1.counter = lease.counter + 1
      ∧ (RenewLease now token resp bk lease).1.owner = lease.owner)
    ∧ ((TakeLease workerId now token resp bk lease).2 = none →
      (TakeLease workerId now token resp bk lease).1.counter = lease.counter + 1
      ∧ (TakeLease workerId now token resp bk lease).1.owner = workerId) := by
  constructor
  · intro hs
    unfold RenewLease at hs ⊢
    cases h : condUpdate now token resp bk { lease with counter := lease.counter + 1 } lease with
    | none => simp [h]
    | some e => simp [h] at hs
  · intro hs
    unfold TakeLease at hs ⊢
    cases h : condUpdate now token resp bk
        { lease with counter := lease.counter + 1, owner := workerId } lease with
    | none => simp [h]
    | some e => simp [h] at hs

/-- Witness for C2: a store that accepts the update makes `RenewLease` move
the concrete lease's counter from 10 to 11 keeping owner `"o1"`, and
`TakeLease` moves it to 11 and owner `"me"`. -/
theorem success_increments_counter_witness :
    ((RenewLease 0 "t" (fun _ => .ok []) 0
        { key := "foo", owner := "o1", counter := 10 }).1.counter = 11
      ∧ (RenewLease 0 "t" (fun _ => .ok []) 0
        { key := "foo", owner := "o1", counter := 10 }).1.owner = "o1")
    ∧ ((TakeLease "me" 0 "t" (fun _ => .ok []) 0
        { key := "foo", owner := "o1", counter := 10 }).1.counter = 11
      ∧ (TakeLease "me" 0 "t" (fun _ => .ok []) 0
        { key := "foo", owner := "o1", counter := 10 }).1.owner = "me") := by
  obtain ⟨h1, h2⟩ := success_increments_counter 0 "t" "me" (fun _ => .ok []) 0
    { key := "foo", owner := "o1", counter := 10 }
  exact ⟨h1 (by decide), h2 (by decide)⟩

/-- C3 counterexample: for the concrete lease
`{key := "foo", owner := "o1", counter := 10}`, the conditional update
issued by `EvictLease` does NOT have a condition consisting only of the
owner clause — it carries the counter clause as well — and its update
expression writes the `leaseCounter` attribute. -/
theorem evict_condition_counterexample :
    (evictInput { key := "foo", owner := "o1", counter := 10 }).conditionExpression
      = some ":condCounter = #counter AND :condOwner = #owner"
    ∧ (evictInput { key := "foo", owner := "o1", counter := 10 }).conditionExpression
      ≠ some ":condOwner = #owner"
    ∧ (evictInput { key := "foo", owner := "o1", counter := 10 }).updateExpression
      = "SET leaseOwner = :owner, leaseCounter = :count" := by
  refine ⟨by decide, by decide, by decide⟩

/-- C3 amended: for every veteran lease (counter > 0 and non-empty owner),
`EvictLease` issues a conditional update setting owner to `"NULL"` whose
condition is `:condCounter = #counter AND :condOwner = #owner` (counter
clause included), and whose update expression writes the stored counter
attribute back with its unchanged value `lease.counter`. -/
theorem evict_condition_amended (lease : Lease)
    (hc : lease.counter > 0) (ho : lease.owner ≠ "") :
    (evictInput lease).conditionExpression
      = some ":condCounter = #counter AND :condOwner = #owner"
    ∧ (evictInput lease).updateExpression
      = "SET leaseOwner = :owner, leaseCounter = :count"
    ∧ (evictInput lease).exprAttrValues
      = [(":owner", .s "NULL"), (":count", .n (toString lease.counter)),
         (":condCounter", .n (toString lease.counter)),
         (":condOwner", .s lease.owner)] := by
  unfold evictInput condUpdateInput
  simp [hc, ho, LeaseOwnerKey, LeaseCounterKey]

/-- Witness for C3 amended: the amended statement instantiated at the
concrete veteran lease `{key := "bar", owner := "w1", counter := 3}`. -/
theorem evict_condition_amended_witness :
    (evictInput { key := "bar", owner := "w1", counter := 3 }).conditionExpression
      = some ":condCounter = #counter AND :condOwner = #owner"
    ∧ (evictInput { key := "bar", owner := "w1", counter := 3 }).updateExpression
      = "SET leaseOwner = :owner, leaseCounter = :count"
    ∧ (evictInput { key := "bar", owner := "w1", counter := 3 }).exprAttrValues
      = [(":owner", .s "NULL"), (":count", .n (toString (3 : Int))),
         (":condCounter", .n (toString (3 : Int))), (":condOwner", .s "w1")] :=
  evict_condition_amended { key := "bar", owner := "w1", counter := 3 }
    (by decide) (by decide)

/-- C8: `CreateLeaseTable` treats an "already exists" store error as
success (no error, exactly one store call when it is the first response),
returns the generic error after exactly 3 `CreateTable` calls when the
store persistently fails, and leaves the shared backoff reset (attempt
counter 0) at the end of the call in every case. -/
theorem create_table_retry_discipline (resp : Nat → CtResp) :
    (resp 0 = .alreadyExists → CreateLeaseTable resp 0 = (none, 1, 0))
    ∧ ((∀ i, i < maxCreateRetries → resp i = .genericErr) →
        CreateLeaseTable resp 0 = (some .genericErr, 3, 0))
    ∧ (CreateLeaseTable resp 0).2.2 = 0 := by
  refine ⟨?_, ?_, ?_⟩
  · intro h
    simp [CreateLeaseTable, createTableLoop, h, maxCreateRetries]
  · intro h
    have h0 := h 0 (by simp [maxCreateRetries])
    have h1 := h 1 (by simp [maxCreateRetries])
    have h2 := h 2 (by simp [maxCreateRetries])
    simp [CreateLeaseTable, createTableLoop, h0, h1, h2, maxCreateRetries]
  · unfold CreateLeaseTable
    rcases createTableLoop resp (maxCreateRetries - 0) 0 with ⟨fst, snd⟩
    cases fst <;> rfl

/-- Witness for C8: an "already exists" first response yields success after
one call, and a persistently failing store yields the generic error after
exactly 3 calls with the backoff reset. -/
theorem create_table_retry_discipline_witness :
    CreateLeaseTable (fun _ => .alreadyExists) 0 = (none, 1, 0)
    ∧ CreateLeaseTable (fun _ => .genericErr) 0 = (some .genericErr, 3, 0) := by
  refine ⟨(create_table_retry_discipline (fun _ => .alreadyExists)).1 rfl,
    (create_table_retry_discipline (fun _ => .genericErr)).2.1 (fun i _ => rfl)⟩

/-- C9: for every successful scan, `ListLeases` skips any item that fails
to decode (only logging the decode error) and returns the successfully
decoded leases with a nil error; a decode failure of one item never fails
the whole listing. -/
theorem list_leases_skips_undecodable (now : Int) (token : String)
    (items : List Item) (resp : Nat → ScanResp) (h : resp 0 = .ok items) :
    ListLeases now token resp 0 = (items.filterMap (Decode now token), none, 1) := by
  simp [ListLeases, listLeasesLoop, h, maxScanRetries]

/-- Witness for C9: a scan returning one decodable item and one
undecodable item (its `leaseKey` attribute is a number) produces exactly
the one decoded lease and a nil error. -/
theorem list_leases_skips_undecodable_witness :
    ListLeases 0 "t"
      (fun _ => .ok [[("leaseKey", .s "a"), ("leaseCounter", .n "7")],
                     [("leaseKey", .n "notastring")]]) 0
      = ([{ key := "a", owner := "", counter := 7, lastRenewal := 0,
            concurrencyToken := "t" }], none, 1) := by
  have h := list_leases_skips_undecodable 0 "t"
    [[("leaseKey", .s "a"), ("leaseCounter", .n "7")], [("leaseKey", .n "notastring")]]
    (fun _ => .ok [[("leaseKey", .s "a"), ("leaseCounter", .n "7")],
                   [("leaseKey", .n "notastring")]]) rfl
  exact h.trans (by decide)

/-- In a list of leases with pairwise distinct keys, `find?` on key
equality returns the member with that key. -/
theorem find?_key_of_nodup (held : List Lease) (hl : Lease) (k : String)
    (hnd : (held.map Lease.key).Nodup) (hmem : hl ∈ held) (hkey : hl.key = k) :
    held.find? (fun h => k == h.key) = some hl := by
  induction held with
  | nil => cases hmem
  | cons h0 rest ih =>
    rw [List.map_cons, List.nodup_cons] at hnd
    have hnd0 : h0.key ∉ rest.map Lease.key ∧ (rest.map Lease.key).Nodup := hnd
    rcases List.mem_cons.mp hmem with rfl | hmem'
    · exact List.find?_cons_of_pos _ (by simp [hkey])
    · have hne : h0.key ≠ k := by
        intro he
        exact hnd0.1 (he ▸ hkey ▸ List.mem_map_of_mem Lease.key hmem')
      rw [List.find?_cons_of_neg _ (by simp [Ne.symm hne])]
      exact ih hnd0.2 hmem'

/-- C7: `Coordinator.Update` fails with `ErrLeaseNotHeld` when no held
lease has the argument's key, fails with `ErrTokenNotMatch` when the held
lease with that key (held copies are self-owned, hence owned) has a
different concurrency token, and in both failure cases performs no store
call and returns the input lease unchanged. -/
theorem coordinator_update_local_guards (held : List Lease) (lease : Lease) :
    ((∀ h ∈ held, h.key ≠ lease.key) →
      coordUpdate held lease = .failed lease .leaseNotHeld)
    ∧ (∀ hl : Lease, (held.map Lease.key).Nodup →
        (∀ h ∈ held, h.hasNoOwner = false) →
        hl ∈ held → hl.key = lease.key →
        hl.concurrencyToken ≠ lease.concurrencyToken →
        coordUpdate held lease = .failed lease .tokenNotMatch) := by
  constructor
  · intro h
    have hfind : held.find? (fun hlease => lease.key == hlease.key) = none := by
      rw [List.find?_eq_none]
      intro x hx
      simpa using (h x hx).symm
    simp [coordUpdate, hfind, Lease.hasNoOwner]
  · intro hl hnd hown hmem hkey htok
    have hfind := find?_key_of_nodup held hl lease.key hnd hmem hkey
    have h1 : hl.hasNoOwner = false := hown hl hmem
    simp [coordUpdate, hfind, h1, htok]

/-- Witness for C7: with no held lease the concrete update fails with
`LeaseNotHeld`; with a held self-owned copy of `"foo"` carrying token `"T"`,
an update of `"foo"` carrying token `"S"` fails with `TokenNotMatch`. -/
theorem coordinator_update_local_guards_witness :
    coordUpdate [] { key := "foo" } = .failed { key := "foo" } .leaseNotHeld
    ∧ coordUpdate [{ key := "foo", owner := "me", concurrencyToken := "T" }]
        { key := "foo", concurrencyToken := "S" }
      = .failed { key := "foo", concurrencyToken := "S" } .tokenNotMatch := by
  constructor
  · exact (coordinator_update_local_guards [] { key := "foo" }).1
      (by intro h hh; cases hh)
  · exact (coordinator_update_local_guards
        [{ key := "foo", owner := "me", concurrencyToken := "T" }]
        { key := "foo", concurrencyToken := "S" }).2
      { key := "foo", owner := "me", concurrencyToken := "T" }
      (by simp) (by intro h hh; rw [List.mem_singleton.mp hh]; decide)
      (List.mem_singleton.mpr rfl) (by decide) (by decide)

/-- Exclusivity invariant of the two metadata maps: a key present in
`extrafields` is absent from `explicitfields`. -/
def metaExclusive (l : Lease) : Prop :=
  ∀ j, memA l.extrafields j = true → memA l.explicitfields j = false

/-- One metadata operation of the `Lease` API. -/
inductive MetaOp : Type
  | set (k : String) (v : GoVal)
  | setAs (k : String) (v : GoVal) (t : AttributeType)
  | del (k : String)

/-- Application of one metadata operation (`SetAs` keeping the lease of the
returned pair). -/
def applyMetaOp (l : Lease) : MetaOp → Lease
  | .set k v => l.set k v
  | .setAs k v t => (l.setAs k v t).1
  | .del k => l.del k

/-- Application of a sequence of metadata operations. -/
def applyMetaOps (l : Lease) (ops : List MetaOp) : Lease :=
  ops.foldl applyMetaOp l

/-- Each metadata operation preserves the exclusivity invariant. -/
theorem metaExclusive_applyMetaOp (l : Lease) (op : MetaOp)
    (hd : metaExclusive l) : metaExclusive (applyMetaOp l op) := by
  cases op with
  | set k v =>
    intro j hj
    simp only [applyMetaOp, Lease.set] at hj ⊢
    by_cases hjk : j = k
    · subst hjk; simp
    · rw [memA_insertA_ne _ _ _ _ hjk] at hj
      rw [memA_eraseA_ne _ _ _ hjk]
      exact hd j hj
  | setAs k v t =>
    intro j hj
    cases t <;> cases v <;>
      simp only [applyMetaOp, Lease.setAs] at hj ⊢ <;>
      first
      | exact hd j hj
      | (by_cases hjk : j = k
         · subst hjk; simp at hj
         · rw [memA_eraseA_ne _ _ _ hjk] at hj
           rw [memA_insertA_ne _ _ _ _ hjk]
           exact hd j hj)
  | del k =>
    intro j hj
    simp only [applyMetaOp, Lease.del] at hj ⊢
    by_cases h1 : memA l.extrafields k
    · simp only [h1, if_true] at hj ⊢
      by_cases hjk : j = k
      · subst hjk; simp at hj
      · rw [memA_eraseA_ne _ _ _ hjk] at hj
        exact hd j hj
    · simp only [h1, if_false, Bool.false_eq_true] at hj ⊢
      by_cases h2 : memA l.explicitfields k
      · simp only [h2, if_true] at hj ⊢
        by_cases hjk : j = k
        · subst hjk
          simp
        · rw [memA_eraseA_ne _ _ _ hjk]
          exact hd j hj
      · simp only [h2, if_false, Bool.false_eq_true] at hj ⊢
        exact hd j hj

/-- A fresh lease satisfies the exclusivity invariant and every operation
sequence preserves it. -/
theorem metaExclusive_applyMetaOps (l : Lease) (ops : List MetaOp)
    (hd : metaExclusive l) : metaExclusive (applyMetaOps l ops) := by
  induction ops generalizing l with
  | nil => exact hd
  | cons op rest ih =>
    exact ih (applyMetaOp l op) (metaExclusive_applyMetaOp l op hd)

/-- C10: each metadata key resides in at most one of `extrafields` and
`explicitfields` under any sequence of `Set`/`SetAs`/`Del` from a fresh
lease; `Set` inserts the key into `extrafields` and removes it from
`explicitfields`; a successful `SetAs` inserts it into `explicitfields` and
removes it from `extrafields` (a failed `SetAs` changes nothing); `Del`
removes the key from whichever map holds it and appends it to
`removedfields` exactly when it was present. -/
theorem metadata_key_exclusivity (l : Lease) (k : String) (v : GoVal)
    (typ : AttributeType) (hd : metaExclusive l) :
    (∀ (s : String) (ops : List MetaOp), metaExclusive (applyMetaOps (NewLease s) ops))
    ∧ memA (l.set k v).extrafields k = true
    ∧ memA (l.set k v).explicitfields k = false
    ∧ (∀ l' : Lease, l.setAs k v typ = (l', none) →
        memA l'.explicitfields k = true ∧ memA l'.extrafields k = false)
    ∧ (∀ l' e, l.setAs k v typ = (l', some e) → l' = l)
    ∧ memA (l.del k).extrafields k = false
    ∧ memA (l.del k).explicitfields k = false
    ∧ ((l.del k).removedfields
        = if memA l.extrafields k || memA l.explicitfields k
          then l.removedfields ++ [k] else l.removedfields) := by
  refine ⟨?_, by simp [Lease.set], by simp [Lease.set], ?_, ?_, ?_, ?_, ?_⟩
  · intro s ops
    refine metaExclusive_applyMetaOps _ _ ?_
    intro j hj
    simp [NewLease] at hj
  · intro l' hl'
    cases typ <;> cases v <;> simp [Lease.setAs] at hl' <;>
      · rw [← hl']
        simp
  · intro l' e hl'
    cases typ <;> cases v <;> simp [Lease.setAs] at hl' <;> tauto
  · unfold Lease.del
    by_cases h1 : memA l.extrafields k
    · simp [h1]
    · simp [h1]
      by_cases h2 : memA l.explicitfields k <;> simp [h2, h1]
  · unfold Lease.del
    by_cases h1 : memA l.extrafields k
    · simp [h1]
      exact hd k h1
    · simp [h1]
      by_cases h2 : memA l.explicitfields k <;> simp [h2, h1]
  · unfold Lease.del
    by_cases h1 : memA l.extrafields k
    · simp [h1]
    · simp [h1]
      by_cases h2 : memA l.explicitfields k <;> simp [h2, h1]

/-- Witness for C10: concrete sequences on a fresh lease — `Set` then `Del`
on key `"a"`, with the hypothesis discharged on the fresh lease. -/
theorem metadata_key_exclusivity_witness :
    memA (((NewLease "w").set "a" (.str "x")).set "b" (.int 2)).extrafields "b" = true
    ∧ memA (((NewLease "w").set "a" (.str "x")).del "a").extrafields "a" = false
    ∧ (((NewLease "w").set "a" (.str "x")).del "a").removedfields = ["a"] := by
  have hd : metaExclusive ((NewLease "w").set "a" (.str "x")) := by
    intro j hj
    simp [NewLease, Lease.set]
  obtain ⟨-, hset, -, -, -, hdel, -, hrm⟩ :=
    metadata_key_exclusivity ((NewLease "w").set "a" (.str "x")) "b" (.int 2)
      .stringSet hd
  obtain ⟨-, -, -, -, -, hdel', -, hrm'⟩ :=
    metadata_key_exclusivity ((NewLease "w").set "a" (.str "x")) "a" (.int 2)
      .stringSet hd
  exact ⟨hset, hdel', hrm'.trans (by decide)⟩

/-- Membership after one `renewStep`: a listed self-owned lease is
inserted, a listed foreign-owned lease is removed, and keys other than the
processed lease's key are untouched. -/
theorem memA_foldl_renewStep (wid : String) (renewOk : String → Bool)
    (list : List Lease) (acc : List (String × Lease)) (k : String)
    (hnd : (list.map Lease.key).Nodup) :
    memA (list.foldl (renewStep wid renewOk) acc) k
      = match list.find? (fun l => l.key == k) with
        | some l => l.owner == wid
        | none => memA acc k := by
  induction list generalizing acc with
  | nil => simp
  | cons l rest ih =>
    rw [List.map_cons, List.nodup_cons] at hnd
    rw [List.foldl_cons, ih _ hnd.2]
    by_cases hk : l.key = k
    · subst hk
      rw [List.find?_cons_of_pos _ (by simp)]
      have hrest : rest.find? (fun x => x.key == l.key) = none := by
        rw [List.find?_eq_none]
        intro x hx
        simp only [beq_iff_eq]
        intro hxk
        exact hnd.1 (hxk ▸ List.mem_map_of_mem Lease.key hx)
      rw [hrest]
      unfold renewStep
      by_cases ho : l.owner = wid
      · simp [ho]
      · by_cases hm : memA acc l.key
        · simp [hm, ho]
        · simp [hm, ho]
    · rw [List.find?_cons_of_neg _ (by simp [hk])]
      have hstep : memA (renewStep wid renewOk acc l) k = memA acc k := by
        unfold renewStep
        by_cases ho : l.owner = wid
        · simp only [ho, beq_self_eq_true, if_true, ite_self]
          exact memA_insertA_ne _ _ _ _ (fun he => hk he.symm)
        · have hob : (l.owner == wid) = false := by simp [ho]
          rw [hob]
          simp only [Bool.false_eq_true, if_false]
          by_cases hm : memA acc l.key
          · simp only [hm, if_true]
            exact memA_eraseA_ne _ _ _ (fun he => hk he.symm)
          · simp [hm]
      cases hrf : rest.find? (fun l => l.key == k) with
      | some l' => rfl
      | none => exact hstep

/-- Lookup after a Go map delete: the deleted key is gone, others are
untouched. -/
theorem lookupA_eraseA {α : Type} (m : List (String × α)) (k j : String) :
    lookupA (eraseA m k) j = if j = k then none else lookupA m j := by
  induction m with
  | nil => by_cases h : j = k <;> simp [h]
  | cons p rest ih =>
    rw [eraseA_cons]
    by_cases hj : j = k
    · subst hj
      by_cases hp : p.1 = j
      · rw [if_pos hp, ih]
        simp
      · rw [if_neg hp, lookupA_cons]
        have hb : (p.1 == j) = false := by simp [hp]
        rw [hb, ih]
        simp
    · by_cases hp : p.1 = k
      · have hpj : ¬ p.1 = j := by rw [hp]; exact fun he => hj he.symm
        rw [if_pos hp, ih, if_neg hj, if_neg hj, lookupA_cons]
        have hb : (p.1 == j) = false := by simp [hpj]
        rw [hb]
        simp
      · rw [if_neg hp]
        by_cases hpj : p.1 = j
        · simp [hpj, hj]
        · simp [hpj, ih, hj]

/-- Lookup commutes with mapping over the values of a Go map. -/
theorem lookupA_map_value {α β : Type} (f : α → β) (m : List (String × α)) (j : String) :
    lookupA (m.map (fun p => (p.1, f p.2))) j = (lookupA m j).map f := by
  induction m with
  | nil => simp
  | cons p rest ih =>
    by_cases hp : p.1 = j <;> simp [hp, ih]

/-- Key membership in a Go map coincides with membership in its key list. -/
theorem memA_iff_mem_keys {α : Type} (m : List (String × α)) (k : String) :
    memA m k = true ↔ k ∈ m.map Prod.fst := by
  induction m with
  | nil => simp
  | cons p rest ih =>
    simp only [memA_cons, List.map_cons, List.mem_cons, Bool.or_eq_true, beq_iff_eq, ih]
    constructor
    · rintro (h | h)
      · exact Or.inl h.symm
      · exact Or.inr h
    · rintro (h | h)
      · exact Or.inl h.symm
      · exact Or.inr h

/-- A key outside a Go map's key list looks up to nothing. -/
theorem lookupA_eq_none_of_not_mem {α : Type} (m : List (String × α)) (k : String)
    (h : k ∉ m.map Prod.fst) : lookupA m k = none := by
  cases hm : lookupA m k with
  | none => rfl
  | some v =>
    exfalso
    apply h
    rw [← memA_iff_mem_keys]
    rw [memA_iff_lookupA, hm]
    rfl

/-- Merging a Go map `ps` (pairwise distinct keys) into `acc` entry by
entry: a key of `ps` looks up to its `ps` value, any other key keeps its
`acc` value. -/
theorem lookupA_foldl_insert {α : Type} (ps : List (String × α)) (acc : List (String × α))
    (j : String) (hnd : (ps.map Prod.fst).Nodup) :
    lookupA (ps.foldl (fun a p => insertA a p.1 p.2) acc) j
      = match lookupA ps j with
        | some v => some v
        | none => lookupA acc j := by
  induction ps generalizing acc with
  | nil => simp
  | cons p rest ih =>
    rw [List.map_cons, List.nodup_cons] at hnd
    rw [List.foldl_cons, ih _ hnd.2]
    by_cases hj : p.1 = j
    · subst hj
      rw [lookupA_eq_none_of_not_mem rest p.1 hnd.1]
      simp [lookupA_insertA_self]
    · rw [lookupA_insertA_ne _ _ _ _ (fun he => hj he.symm)]
      simp only [lookupA_cons]
      have : (p.1 == j) = false := by simp [hj]
      rw [this]
      simp

/-- C4 counterexample: for the concrete lease with owner `"me"` and an
explicit field named `leaseOwner`, Encode's item carries the explicit
field's value at the reserved key `leaseOwner`, not the lease's owner: the
reserved names are not stripped from `explicitfields` before merging. -/
theorem encode_reserved_counterexample :
    lookupA (Encode { key := "k", owner := "me", counter := 5,
                      explicitfields := [("leaseOwner", .ss ["x"])] }) LeaseOwnerKey
      = some (.ss ["x"])
    ∧ lookupA (Encode { key := "k", owner := "me", counter := 5,
                        explicitfields := [("leaseOwner", .ss ["x"])] }) LeaseOwnerKey
      ≠ some (.s "me") := by
  exact ⟨by decide, by decide⟩

/-- C4 amended: Encode produces an item mapping each key as follows —
a non-reserved `extrafields` entry wins, then an `explicitfields` entry
(including entries named after the reserved keys, which therefore overwrite
the reserved triple), then the reserved triple taken from the lease's
key/owner/counter. Reserved names are stripped from `extrafields` only. -/
theorem encode_lookup (l : Lease) (j : String)
    (h1 : (l.extrafields.map Prod.fst).Nodup)
    (h2 : (l.explicitfields.map Prod.fst).Nodup) :
    lookupA (Encode l) j =
      match (if j ∈ schemakeys then none else lookupA l.extrafields j) with
      | some v => some (marshalVal v)
      | none =>
        match lookupA l.explicitfields j with
        | some a => some a
        | none =>
          if j = LeaseKeyKey then some (.s l.key)
          else if j = LeaseOwnerKey then some (.s l.owner)
          else if j = LeaseCounterKey then some (.n (toString l.counter))
          else none := by
  have hkeys : ∀ (m : List (String × GoVal)) (k : String),
      List.Sublist ((eraseA m k).map Prod.fst) (m.map Prod.fst) :=
    fun m k => (List.filter_sublist m).map Prod.fst
  have hstrip :
      schemakeys.foldl (fun m k => eraseA m k) l.extrafields
        = eraseA (eraseA (eraseA l.extrafields LeaseKeyKey) LeaseOwnerKey) LeaseCounterKey := by
    simp [schemakeys]
  have hnd3 : ((eraseA (eraseA (eraseA l.extrafields LeaseKeyKey) LeaseOwnerKey)
      LeaseCounterKey).map Prod.fst).Nodup :=
    (((h1.sublist (hkeys _ _)).sublist (hkeys _ _)).sublist (hkeys _ _))
  have hmapkeys :
      ((eraseA (eraseA (eraseA l.extrafields LeaseKeyKey) LeaseOwnerKey)
          LeaseCounterKey).map (fun p => (p.1, marshalVal p.2))).map Prod.fst
        = (eraseA (eraseA (eraseA l.extrafields LeaseKeyKey) LeaseOwnerKey)
            LeaseCounterKey).map Prod.fst := by
    simp [List.map_map, Function.comp]
  unfold Encode
  rw [hstrip]
  rw [lookupA_foldl_insert _ _ _ (by rw [hmapkeys]; exact hnd3)]
  rw [lookupA_foldl_insert _ _ _ h2]
  rw [lookupA_map_value]
  rw [lookupA_eraseA, lookupA_eraseA, lookupA_eraseA]
  have hmem : (j ∈ schemakeys) ↔ (j = LeaseKeyKey ∨ j = LeaseOwnerKey ∨ j = LeaseCounterKey) := by
    simp [schemakeys]
  by_cases ha : j = LeaseKeyKey
  · subst ha
    simp [LeaseKeyKey, LeaseOwnerKey, LeaseCounterKey, schemakeys, lookupA]
    cases lookupA l.explicitfields "leaseKey" <;> rfl
  · by_cases hb : j = LeaseOwnerKey
    · subst hb
      simp [LeaseKeyKey, LeaseOwnerKey, LeaseCounterKey, schemakeys, lookupA]
      cases lookupA l.explicitfields "leaseOwner" <;> rfl
    · by_cases hc : j = LeaseCounterKey
      · subst hc
        simp [LeaseKeyKey, LeaseOwnerKey, LeaseCounterKey, schemakeys, lookupA]
        cases lookupA l.explicitfields "leaseCounter" <;> rfl
      · have hnmem : ¬ j ∈ schemakeys := by
          rw [hmem]
          tauto
        rw [if_neg hc, if_neg hb, if_neg ha, if_neg hnmem]
        have hra : (LeaseKeyKey == j) = false := by
          simp only [beq_eq_false_iff_ne]
          exact Ne.symm ha
        have hrb : (LeaseOwnerKey == j) = false := by
          simp only [beq_eq_false_iff_ne]
          exact Ne.symm hb
        have hrc : (LeaseCounterKey == j) = false := by
          simp only [beq_eq_false_iff_ne]
          exact Ne.symm hc
        cases lookupA l.extrafields j with
        | some v =>
          simp
        | none =>
          cases lookupA l.explicitfields j with
          | some a => simp
          | none =>
            simp [lookupA, hra, hrb, hrc, ha, hb, hc]

/-- Witness for C4 amended: the characterization instantiated at a
concrete lease whose maps have distinct keys, looked up at the reserved
owner key (which an explicit field overwrites) and at a plain metadata
key. -/
theorem encode_lookup_witness :
    lookupA (Encode
      { key := "k", owner := "me", counter := 5,
        extrafields := [("task", .str "x")],
        explicitfields := [("leaseOwner", .ss ["x"])] }) "leaseOwner"
      = some (.ss ["x"])
    ∧ lookupA (Encode
      { key := "k", owner := "me", counter := 5,
        extrafields := [("task", .str "x")],
        explicitfields := [("leaseOwner", .ss ["x"])] }) "task"
      = some (.s "x") := by
  constructor
  · exact (encode_lookup
      { key := "k", owner := "me", counter := 5,
        extrafields := [("task", .str "x")],
        explicitfields := [("leaseOwner", .ss ["x"])] } "leaseOwner"
      (by decide) (by decide)).trans (by decide)
  · exact (encode_lookup
      { key := "k", owner := "me", counter := 5,
        extrafields := [("task", .str "x")],
        explicitfields := [("leaseOwner", .ss ["x"])] } "task"
      (by decide) (by decide)).trans (by decide)

/-- The deprecated-lease filter removes every held entry whose key is not
listed. -/
theorem memA_filter_deprecated (held : List (String × Lease)) (list : List Lease)
    (k : String) (h : ∀ x ∈ list, (x.key == k) = false) :
    memA (held.filter (fun p => list.any (fun l => l.key == p.1))) k = false := by
  induction held with
  | nil => simp
  | cons p rest ih =>
    rw [List.filter_cons]
    by_cases hp : p.1 = k
    · have hpred : (list.any (fun l => l.key == p.1)) = false := by
        rw [hp]
        simp only [List.any_eq_false]
        intro x hx
        simp [h x hx]
      simp [hpred, ih]
    · by_cases hc : list.any (fun l => l.key == p.1)
      · simp [hc, hp, ih]
      · simp only [hc, Bool.false_eq_true, if_false]
        exact ih

/-- C6: after every successful `Renew` tick, the held map contains exactly
the keys listed with this worker as owner; keys absent from the list or
listed under another owner are removed, newly listed self-owned keys are
inserted, and the outcome of the individual `RenewLease` calls (`renewOk`)
does not affect membership — a failed renewal does not remove the lease. -/
theorem renewer_held_set (wid : String) (renewOk : String → Bool)
    (held : List (String × Lease)) (list : List Lease)
    (hnd : (list.map Lease.key).Nodup) (k : String) :
    memA (renewTick wid renewOk held list) k
      = list.any (fun l => l.key == k && l.owner == wid) := by
  unfold renewTick
  rw [memA_foldl_renewStep _ _ _ _ _ hnd]
  cases hf : list.find? (fun l => l.key == k) with
  | some l =>
    have hmem := List.mem_of_find?_eq_some hf
    have hlk : l.key = k := by simpa using List.find?_some hf
    by_cases ho : l.owner = wid
    · have : list.any (fun l => l.key == k && l.owner == wid) = true := by
        rw [List.any_eq_true]
        exact ⟨l, hmem, by simp [hlk, ho]⟩
      rw [this]
      simp [ho]
    · have : list.any (fun l => l.key == k && l.owner == wid) = false := by
        rw [List.any_eq_false]
        intro x hx
        simp only [Bool.and_eq_true, beq_iff_eq, not_and]
        intro hxk
        have hxl : x = l := List.inj_on_of_nodup_map hnd hx hmem (by rw [hxk, hlk])
        rw [hxl]
        exact ho
      rw [this]
      simp [ho]
  | none =>
    have hnone : ∀ x ∈ list, (x.key == k) = false := by
      intro x hx
      simpa using List.find?_eq_none.mp hf x hx
    have hany : list.any (fun l => l.key == k && l.owner == wid) = false := by
      rw [List.any_eq_false]
      intro x hx
      simp [hnone x hx]
    rw [hany]
    exact memA_filter_deprecated held list k hnone

/-- Witness for C6: with held keys `a` and `d`, a listing of `a` (mine),
`b` (someone else's) and `c` (mine), and every renewal failing, the held
set afterwards is exactly `{a, c}`. -/
theorem renewer_held_set_witness :
    memA (renewTick "me" (fun _ => false)
      [("a", { key := "a", owner := "me" }), ("d", { key := "d", owner := "me" })]
      [{ key := "a", owner := "me" }, { key := "b", owner := "other" },
       { key := "c", owner := "me" }]) "a" = true
    ∧ memA (renewTick "me" (fun _ => false)
      [("a", { key := "a", owner := "me" }), ("d", { key := "d", owner := "me" })]
      [{ key := "a", owner := "me" }, { key := "b", owner := "other" },
       { key := "c", owner := "me" }]) "b" = false
    ∧ memA (renewTick "me" (fun _ => false)
      [("a", { key := "a", owner := "me" }), ("d", { key := "d", owner := "me" })]
      [{ key := "a", owner := "me" }, { key := "b", owner := "other" },
       { key := "c", owner := "me" }]) "c" = true
    ∧ memA (renewTick "me" (fun _ => false)
      [("a", { key := "a", owner := "me" }), ("d", { key := "d", owner := "me" })]
      [{ key := "a", owner := "me" }, { key := "b", owner := "other" },
       { key := "c", owner := "me" }]) "d" = false := by
  refine ⟨?_, ?_, ?_, ?_⟩ <;>
    exact (renewer_held_set "me" (fun _ => false)
      [("a", { key := "a", owner := "me" }), ("d", { key := "d", owner := "me" })]
      [{ key := "a", owner := "me" }, { key := "b", owner := "other" },
       { key := "c", owner := "me" }] (by decide) _).trans (by decide)

/-- Folding key-fresh inserts over a Go map adds one entry per list
element. -/
theorem length_foldl_insert_key (val : Lease → Lease) (list : List Lease)
    (acc : List (String × Lease)) (hnd : (list.map Lease.key).Nodup)
    (hfresh : ∀ l ∈ list, memA acc l.key = false) :
    (list.foldl (fun a l => insertA a l.key (val l)) acc).length
      = acc.length + list.length := by
  induction list generalizing acc with
  | nil => simp
  | cons l rest ih =>
    rw [List.map_cons, List.nodup_cons] at hnd
    rw [List.foldl_cons]
    have hfresh' : ∀ l' ∈ rest, memA (insertA acc l.key (val l)) l'.key = false := by
      intro l' hl'
      have hne : l'.key ≠ l.key := by
        intro he
        exact hnd.1 (he ▸ List.mem_map_of_mem Lease.key hl')
      rw [memA_insertA_ne _ _ _ _ hne]
      exact hfresh l' (List.mem_cons_of_mem _ hl')
    rw [ih _ hnd.2 hfresh']
    rw [length_insertA_not_mem _ _ _ (hfresh l (List.mem_cons_self _ _))]
    simp only [List.length_cons]
    omega

/-- Inserting into a Go map leaves it non-empty. -/
theorem length_insertA_pos {α : Type} (m : List (String × α)) (k : String) (v : α) :
    1 ≤ (insertA m k v).length := by
  cases m with
  | nil => simp [insertA]
  | cons p rest =>
    by_cases h : p.1 = k <;> simp [insertA, h]

/-- A Go map containing a key is non-empty. -/
theorem length_pos_of_memA {α : Type} (m : List (String × α)) (k : String)
    (h : memA m k = true) : 1 ≤ m.length := by
  cases m with
  | nil => simp at h
  | cons p rest => simp

/-- The owner-count map always contains at least this worker. -/
theorem computeLeaseCounts_pos (workerId : String) (all : List (String × Lease)) :
    1 ≤ (computeLeaseCounts workerId all).length := by
  unfold computeLeaseCounts
  by_cases h : memA (all.foldl (fun m p =>
      if p.2.hasNoOwner then m
      else
        match lookupA m p.2.owner with
        | some c => insertA m p.2.owner (c + 1)
        | none => insertA m p.2.owner 1) []) workerId
  · rw [if_pos h]
    exact length_pos_of_memA _ _ h
  · rw [if_neg h]
    exact length_insertA_pos _ _ _

/-- Integer ceiling via floor division: for positive `W`,
`N/W` plus one exactly when `W` does not divide `N` equals `(N+W-1)/W`. -/
theorem div_ceil_eq (N W : Nat) (hW : 0 < W) :
    N / W + (if N % W ≠ 0 then 1 else 0) = (N + W - 1) / W := by
  obtain ⟨q, r, hr, hN⟩ : ∃ q r, r < W ∧ N = W * q + r :=
    ⟨N / W, N % W, Nat.mod_lt _ hW, (Nat.div_add_mod N W).symm⟩
  subst hN
  have hmod2 : (W * q + r) % W = r := by
    rw [Nat.mul_add_mod, Nat.mod_eq_of_lt hr]
  have hq : (W * q + r) / W = q + r / W := Nat.mul_add_div hW q r
  have hrW : r / W = 0 := Nat.div_eq_of_lt hr
  rw [hmod2, hq, hrW]
  by_cases h0 : r = 0
  · subst h0
    rw [if_neg (by simp)]
    have he : W * q + 0 + W - 1 = W * q + (W - 1) := by omega
    rw [he, Nat.mul_add_div hW, Nat.div_eq_of_lt (by omega)]
  · rw [if_pos h0]
    have hWq1 : W * (q + 1) = W * q + W := by ring
    have he : W * q + r + W - 1 = W * (q + 1) + (r - 1) := by omega
    rw [he, Nat.mul_add_div hW, Nat.div_eq_of_lt (by omega)]

/-- C5: on a taker tick whose fresh list has pairwise distinct keys, with
`N` the size of the reconciled `allLeases` map and `W` the number of
counted owners (this worker included), the computed target is 1 when
`N ≤ W` and the integer ceiling `(N + W - 1) / W` of `N / W` otherwise.
(The source's divisibility check divides `len(list)`, which equals `N`
because the reconciled map holds exactly one entry per listed key.) -/
theorem take_target_fair (wid : String) (expireAfter now : Int)
    (evictOk : String → Bool) (old : List (String × Lease)) (list : List Lease)
    (hnd : (list.map Lease.key).Nodup) :
    takeTarget wid expireAfter now evictOk old list
      = (if (takerUpdateLeases expireAfter now evictOk old list).length
            ≤ (computeLeaseCounts wid
                (takerUpdateLeases expireAfter now evictOk old list)).length
         then 1
         else ((takerUpdateLeases expireAfter now evictOk old list).length
            + (computeLeaseCounts wid
                (takerUpdateLeases expireAfter now evictOk old list)).length - 1)
          / (computeLeaseCounts wid
              (takerUpdateLeases expireAfter now evictOk old list)).length) := by
  have hN : (takerUpdateLeases expireAfter now evictOk old list).length = list.length := by
    unfold takerUpdateLeases
    rw [length_foldl_insert_key (takerReconValue expireAfter now evictOk old) list []
      hnd (fun l _ => rfl)]
    simp
  have hW := computeLeaseCounts_pos wid (takerUpdateLeases expireAfter now evictOk old list)
  unfold takeTarget
  by_cases hle : (takerUpdateLeases expireAfter now evictOk old list).length
      ≤ (computeLeaseCounts wid (takerUpdateLeases expireAfter now evictOk old list)).length
  · rw [if_pos hle, if_neg (by omega)]
  · rw [if_neg hle, if_pos (by omega)]
    rw [← div_ceil_eq _ _ (by omega)]
    rw [hN]
    by_cases hm : list.length
        % (computeLeaseCounts wid (takerUpdateLeases expireAfter now evictOk old list)).length
        = 0
    · rw [hm]
      simp
    · have hb : (list.length
          % (computeLeaseCounts wid
              (takerUpdateLeases expireAfter now evictOk old list)).length != 0) = true := by
        simpa using hm
      rw [hb]
      simp [hm]

/-- Witness for C5: three leases owned by worker `"1"`, none expired, seen
by worker `"me"` with an empty previous snapshot: `N = 3`, `W = 2`, target
`⌈3/2⌉ = 2`. -/
theorem take_target_fair_witness :
    takeTarget "me" 10 100 (fun _ => true) []
      [{ key := "x", owner := "1", counter := 3, lastRenewal := 100 },
       { key := "y", owner := "1", counter := 3, lastRenewal := 100 },
       { key := "z", owner := "1", counter := 9, lastRenewal := 100 }] = 2 := by
  exact (take_target_fair "me" 10 100 (fun _ => true) []
    [{ key := "x", owner := "1", counter := 3, lastRenewal := 100 },
     { key := "y", owner := "1", counter := 3, lastRenewal := 100 },
     { key := "z", owner := "1", counter := 9, lastRenewal := 100 }]
    (by decide)).trans (by decide)

end LeaseLib
